import Mathlib

/-!
Shallow embedding of the talent-scheduling DD model (`src/resolution/model.rs`,
`src/resolution/compression.rs`) and proofs about it.

Representation choices:
* `Set64` bitsets become `Finset Nat`.
* `usize`/`isize` become `Nat`/`Int` (all costs and durations are nonnegative
  machine integers in the source; claims only touch in-range values).
* A `ddo::Decision` carries a variable index and a value; the variable index is
  called `var` here (`variable` is a Lean keyword).
* The merge operator consumes an iterator and unwraps its first element; this is
  modelled as a function on `List` returning `Option` (`none` models the panic
  on an empty iterator).
-/

namespace TalentSched

/-- `TalentSchedInstance` from `src/instance.rs`: the vectors `cost`,
`duration` and the 0/1 matrix `actors` are modelled as total functions. -/
structure TalentSchedInstance where
  nb_scenes : Nat
  nb_actors : Nat
  cost : Nat → Nat
  duration : Nat → Nat
  actors : Nat → Nat → Nat

/-- The DP state (`TalentSchedState` in `src/resolution/model.rs`). -/
structure TalentSchedState where
  scenes : Finset Nat
  maybe_scenes : Finset Nat
deriving DecidableEq

/-- The derived per-scene actor sets computed by `TalentSched::new`:
`actors[j] = { i < nb_actors | instance.actors[i][j] = 1 }`. -/
def actorsOf (inst : TalentSchedInstance) (s : Nat) : Finset Nat :=
  (Finset.range inst.nb_actors).filter (fun a => inst.actors a s = 1)

/-- `TalentSched::get_present`: scan scenes `0..nb_scenes`; a scene not in
`maybe_scenes` contributes its actors to `after` when it is in `scenes` and to
`before` otherwise; return `before ∩ after`. -/
def get_present (inst : TalentSchedInstance) (st : TalentSchedState) : Finset Nat :=
  let after := (Finset.range inst.nb_scenes).biUnion
    (fun i => if i ∉ st.maybe_scenes ∧ i ∈ st.scenes then actorsOf inst i else ∅)
  let before := (Finset.range inst.nb_scenes).biUnion
    (fun i => if i ∉ st.maybe_scenes ∧ i ∉ st.scenes then actorsOf inst i else ∅)
  before ∩ after

/-- `Problem::initial_state`: all scenes pending, no maybe scenes. -/
def initial_state (inst : TalentSchedInstance) : TalentSchedState :=
  ⟨Finset.range inst.nb_scenes, ∅⟩

/-- `Problem::initial_value`: the source returns the literal `0`. -/
def initial_value (_inst : TalentSchedInstance) : Int :=
  0

/-- `Problem::transition`: drop the decided scene from both bitsets. -/
def transition (_inst : TalentSchedInstance) (st : TalentSchedState) (v : Nat) :
    TalentSchedState :=
  ⟨st.scenes.erase v, st.maybe_scenes.erase v⟩

/-- `Problem::transition_cost`: pay `cost[a] * duration[v]` for every actor in
`get_present(state) ∪ actors[v]`, negated. -/
def transition_cost (inst : TalentSchedInstance) (st : TalentSchedState) (v : Nat) : Int :=
  let pay := get_present inst st ∪ actorsOf inst v;
  -(((pay.sum fun a => inst.cost a * inst.duration v) : Nat) : Int)

/-- `Relaxation::merge` on a list of states; `none` models the `unwrap` panic
on an empty iterator.  The fold mirrors the source: seed with the first state
whose `maybe_scenes` is unioned with its `scenes`, then intersect the `scenes`
and union both sets of every further state, finally subtract the merged
`scenes` from the merged `maybe_scenes`. -/
def mergeStep (acc s : TalentSchedState) : TalentSchedState :=
  ⟨acc.scenes ∩ s.scenes, (acc.maybe_scenes ∪ s.scenes) ∪ s.maybe_scenes⟩

def merge (l : List TalentSchedState) : Option TalentSchedState :=
  match l with
  | [] => none
  | s0 :: rest =>
    let m := rest.foldl mergeStep ⟨s0.scenes, s0.maybe_scenes ∪ s0.scenes⟩
    some ⟨m.scenes, m.maybe_scenes \ m.scenes⟩

/-- `TalentSchedRanking::compare`: compare total numbers of remaining scenes. -/
def ranking_compare (a b : TalentSchedState) : Ordering :=
  Ord.compare (a.scenes.card + a.maybe_scenes.card) (b.scenes.card + b.maybe_scenes.card)

/-- A `ddo::Decision`: a variable index and a decided value.  The field
`variable` of the source is called `var` here (Lean keyword). -/
structure Decision where
  var : Nat
  value : Nat
deriving DecidableEq

/-- The renumbering loop at the end of `TalentSchedCompression::decompress`:
decisions receive consecutive variable indices starting from `start`. -/
def renumber (start : Nat) : List Decision → List Decision
  | [] => []
  | d :: rest => ⟨start, d.value⟩ :: renumber (start + 1) rest

/-- `TalentSchedCompression::decompress`: push `size[value]` copies of every
meta-decision, then renumber the variables starting at
`nb_scenes - length`. -/
def decompress (S : Nat) (size : Nat → Nat) (solution : List Decision) : List Decision :=
  let sol := solution.flatMap (fun d => List.replicate (size d.value) d)
  renumber (S - sol.length) sol

/-- A clustering entry as kept by `cluster_scenes`: the AND-merged actor
requirement set and the member-scene set. -/
def Cluster : Type := Finset Nat × Finset Nat

instance : Inhabited Cluster := ⟨(∅, ∅)⟩
instance : DecidableEq Cluster := instDecidableEqProd

/-- The accumulated loss of one side of a candidate merge in
`cluster_scenes`: for every member scene, every required actor outside the
common requirement set `inter` contributes `cost * duration`. -/
def sideLoss (inst : TalentSchedInstance) (inter mem : Finset Nat) : Nat :=
  mem.sum fun s =>
    ((actorsOf inst s).filter (fun k => k ∉ inter)).sum fun k =>
      inst.cost k * inst.duration s

/-- The loss computed by `cluster_scenes` for a candidate pair of clusters. -/
def pairLoss (inst : TalentSchedInstance) (a b : Cluster) : Nat :=
  sideLoss inst (a.1 ∩ b.1) a.2 + sideLoss inst (a.1 ∩ b.1) b.2

/-- The pair iteration order of `cluster_scenes`: outer index `i` ascending,
inner index `j > i` ascending. -/
def pairList (n : Nat) : List (Nat × Nat) :=
  (List.range n).flatMap fun i =>
    ((List.range n).filter (fun j => i < j)).map fun j => (i, j)

/-- The running-minimum fold of `cluster_scenes`: keep the current best and
replace it only on a strictly smaller key.  `none` models the initial
`usize::MAX` sentinel (every realizable loss beats it). -/
def pick {α : Type} (f : α → Nat) : Option α → List α → Option α
  | best, [] => best
  | none, x :: xs => pick f (some x) xs
  | some b, x :: xs => pick f (some (if f x < f b then x else b)) xs

/-- The pair selected by one iteration of the `while` loop of
`cluster_scenes`. -/
def selectPair (inst : TalentSchedInstance) (cs : List Cluster) : Option (Nat × Nat) :=
  pick (fun p => pairLoss inst (cs.getD p.1 default) (cs.getD p.2 default)) none
    (pairList cs.length)

/-- One iteration of the `while` loop of `cluster_scenes`: remove cluster `j`
and fold it into cluster `i` (AND the requirement sets, union the members). -/
def clusterStep (inst : TalentSchedInstance) (cs : List Cluster) : List Cluster :=
  match selectPair inst cs with
  | none => cs
  | some (i, j) =>
    let a := cs.getD i default
    let b := cs.getD j default
    (cs.eraseIdx j).set i (a.1 ∩ b.1, a.2 ∪ b.2)

/-- The `while clusters.len() > n_meta_scenes` loop of `cluster_scenes`,
with explicit fuel (each step removes one cluster, so `clusters.length`
steps always suffice). -/
def clusterLoop (inst : TalentSchedInstance) (K : Nat) :
    Nat → List Cluster → List Cluster
  | 0, cs => cs
  | fuel + 1, cs => if K < cs.length then clusterLoop inst K fuel (clusterStep inst cs) else cs

/-- The state reached after the first `k` decisions of a complete path that
schedules the scenes `p 0, p 1, ...` in this order. -/
def schedState (inst : TalentSchedInstance) (p : Nat → Nat) : Nat → TalentSchedState
  | 0 => initial_state inst
  | k + 1 => transition inst (schedState inst p k) (p k)

/-- The accumulated transition cost of the first `k` decisions of the path
scheduling `p 0, p 1, ...`. -/
def pathCost (inst : TalentSchedInstance) (p : Nat → Nat) (k : Nat) : Int :=
  (Finset.range k).sum fun t => transition_cost inst (schedState inst p t) (p t)

/-- Spec-side: actor `a` is on set on the day of the `k`-th scheduled scene
iff some scene at position `≤ k` requires `a` and some scene at position
`≥ k` (within the schedule) requires `a` — i.e. day `k` lies between the
first and the last required scene of `a`, both included. -/
def onSet (inst : TalentSchedInstance) (p : Nat → Nat) (S a k : Nat) : Prop :=
  (∃ i ∈ Finset.range (k + 1), a ∈ actorsOf inst (p i)) ∧
  (∃ j ∈ Finset.range S, k ≤ j ∧ a ∈ actorsOf inst (p j))

instance (inst : TalentSchedInstance) (p : Nat → Nat) (S a k : Nat) :
    Decidable (onSet inst p S a k) := by
  unfold onSet; infer_instance

/-- Spec-side: the total holding cost of the schedule `p 0, ..., p (S-1)`:
the sum over all actors of their cost times the number of days they are on
set between (and including) their first and last required scene. -/
def total_holding_cost (inst : TalentSchedInstance) (p : Nat → Nat) : Nat :=
  (Finset.range inst.nb_actors).sum fun a =>
    inst.cost a *
      ((Finset.range inst.nb_scenes).filter (fun k => onSet inst p inst.nb_scenes a k)).sum
        (fun k => inst.duration (p k))

/-- Spec-side: the total forced cost
`Σ_s Σ_{a ∈ actors_of[s]} cost[a] * duration[s]` of an instance. -/
def forcedCost (inst : TalentSchedInstance) : Nat :=
  (Finset.range inst.nb_scenes).sum fun s =>
    (actorsOf inst s).sum fun a => inst.cost a * inst.duration s

/-- Spec-side: the actors charged by the spec's (incorrect) reading of the
transition cost: the present actors NOT required by the scheduled scene. -/
def specChargedActors (inst : TalentSchedInstance) (st : TalentSchedState) (v : Nat) :
    Finset Nat :=
  get_present inst st \ actorsOf inst v

/-- The actors actually charged by `transition_cost`, written pointwise: an
actor of the instance is charged iff it is present or required by the
scheduled scene. -/
def chargedActors (inst : TalentSchedInstance) (st : TalentSchedState) (v : Nat) :
    Finset Nat :=
  (Finset.range inst.nb_actors).filter
    (fun a => a ∈ get_present inst st ∨ a ∈ actorsOf inst v)

/-- Spec-side: the clustering loss of the claim, summed over the union of the
two member sets: `Σ_{s ∈ m_i ∪ m_j} Σ_{a ∈ actors_of[s] \ (a_i ∩ a_j)}
cost[a] * duration[s]`. -/
def specLoss (inst : TalentSchedInstance) (cs : List Cluster) (i j : Nat) : Nat :=
  let a := cs.getD i default
  let b := cs.getD j default
  ((a.2 ∪ b.2).sum fun s =>
    ((actorsOf inst s) \ (a.1 ∩ b.1)).sum fun k => inst.cost k * inst.duration s)

/-- States reachable from the initial state by any sequence of transitions
and merges. -/
inductive Reachable (inst : TalentSchedInstance) : TalentSchedState → Prop where
  | init : Reachable inst (initial_state inst)
  | trans : ∀ σ v, Reachable inst σ → Reachable inst (transition inst σ v)
  | merged : ∀ l μ, (∀ σ ∈ l, Reachable inst σ) → merge l = some μ → Reachable inst μ

/-- The total number of remaining (certain or maybe) scenes of a state, the
quantity compared by the ranking. -/
def stateTotal (s : TalentSchedState) : Nat :=
  s.scenes.card + s.maybe_scenes.card

/-- A tiny concrete instance: one scene, one actor, unit cost and duration. -/
def inst0 : TalentSchedInstance :=
  ⟨1, 1, fun _ => 1, fun _ => 1, fun _ _ => 1⟩

/-- A concrete instance with four scenes and two actors: actor 0 plays in
scenes 0 and 3, actor 1 plays in scenes 1 and 2; unit costs and durations. -/
def inst1 : TalentSchedInstance :=
  ⟨4, 2, fun _ => 1, fun _ => 1,
   fun a s => if (a = 0 ∧ (s = 0 ∨ s = 3)) ∨ (a = 1 ∧ (s = 1 ∨ s = 2)) then 1 else 0⟩

/-- The four singleton clusters the agglomerative clustering starts from on
`inst1`. -/
def cs0 : List Cluster :=
  [({0}, {0}), ({1}, {1}), ({1}, {2}), ({0}, {3})]

/-- The strict lexicographic order on index pairs, used to state the
tie-break rule of the pair selection. -/
def pairLexLt (p q : Nat × Nat) : Prop :=
  p.1 < q.1 ∨ (p.1 = q.1 ∧ p.2 < q.2)

end TalentSched

namespace TalentSched

/-! ### Basic membership lemmas -/

lemma mem_ite_empty {c : Prop} [Decidable c] {s : Finset Nat} {a : Nat} :
    a ∈ (if c then s else ∅) ↔ c ∧ a ∈ s := by
  split <;> simp [*]

lemma actorsOf_subset (inst : TalentSchedInstance) (s : Nat) :
    actorsOf inst s ⊆ Finset.range inst.nb_actors :=
  Finset.filter_subset _ _

lemma mem_get_present {inst : TalentSchedInstance} {st : TalentSchedState} {a : Nat} :
    a ∈ get_present inst st ↔
      ((∃ i, i < inst.nb_scenes ∧ (i ∉ st.maybe_scenes ∧ i ∉ st.scenes) ∧ a ∈ actorsOf inst i) ∧
       (∃ i, i < inst.nb_scenes ∧ (i ∉ st.maybe_scenes ∧ i ∈ st.scenes) ∧ a ∈ actorsOf inst i)) := by
  simp only [get_present, Finset.mem_inter, Finset.mem_biUnion, Finset.mem_range,
    mem_ite_empty]

lemma get_present_subset (inst : TalentSchedInstance) (st : TalentSchedState) :
    get_present inst st ⊆ Finset.range inst.nb_actors := by
  intro a ha
  rw [mem_get_present] at ha
  obtain ⟨⟨i, _, _, hai⟩, _⟩ := ha
  exact actorsOf_subset inst i hai

/-! ### C1: what the transition cost charges -/

/-- C1 (amended): `transition_cost` charges `cost[a] * duration[v]` for every
actor `a` of the instance that is present **or** required by the scheduled
scene `v`, returned negated. -/
theorem transition_cost_charges_present_or_required
    (inst : TalentSchedInstance) (st : TalentSchedState) (v : Nat) :
    transition_cost inst st v =
      -((((chargedActors inst st v).sum fun a => inst.cost a * inst.duration v) : Nat) : Int) := by
  have hset : get_present inst st ∪ actorsOf inst v = chargedActors inst st v := by
    ext a
    simp only [chargedActors, Finset.mem_filter, Finset.mem_union, Finset.mem_range]
    constructor
    · rintro (h | h)
      · exact ⟨Finset.mem_range.1 (get_present_subset inst st h), Or.inl h⟩
      · exact ⟨Finset.mem_range.1 (actorsOf_subset inst v h), Or.inr h⟩
    · rintro ⟨-, h⟩
      exact h
  simp only [transition_cost, hset]

/-- C1 (counterexample): on the one-scene instance the source charges the
required actor of the scheduled scene even though it is not present, whereas
the spec's formula `present(σ) \ actors_of[v]` charges nobody. -/
theorem transition_cost_spec_formula_fails :
    transition_cost inst0 (initial_state inst0) 0 ≠
      -((((specChargedActors inst0 (initial_state inst0) 0).sum
          fun a => inst0.cost a * inst0.duration 0) : Nat) : Int) := by
  decide

/-! ### C2: the initial value -/

/-- C2 (amended): `initial_value` returns the literal `0` on every instance;
the forced cost is charged through the transition costs instead of being
pre-charged here. -/
theorem initial_value_eq_zero : ∀ inst : TalentSchedInstance, initial_value inst = 0 :=
  fun _ => rfl

/-- C2 (counterexample): on the one-scene instance the negative total forced
cost is `-1`, but `initial_value` returns `0`. -/
theorem initial_value_ne_neg_forced_cost :
    initial_value inst0 ≠ -((forcedCost inst0 : Nat) : Int) := by
  decide

/-! ### C5: the disjointness invariant -/

lemma merge_some_disjoint (l : List TalentSchedState) (μ : TalentSchedState)
    (h : merge l = some μ) : μ.scenes ∩ μ.maybe_scenes = ∅ := by
  match l with
  | [] => simp [merge] at h
  | s :: rest =>
    simp only [merge, Option.some.injEq] at h
    subst h
    simp

/-- C5: every state reachable from the initial state by transitions and
merges has disjoint `scenes` and `maybe_scenes`. -/
theorem reachable_disjoint (inst : TalentSchedInstance) (σ : TalentSchedState)
    (h : Reachable inst σ) : σ.scenes ∩ σ.maybe_scenes = ∅ := by
  induction h with
  | init => simp [initial_state]
  | trans σ' v _ ih =>
    have hsub : (σ'.scenes.erase v) ∩ (σ'.maybe_scenes.erase v) ⊆
        σ'.scenes ∩ σ'.maybe_scenes :=
      Finset.inter_subset_inter (Finset.erase_subset v _) (Finset.erase_subset v _)
    rw [ih] at hsub
    exact Finset.subset_empty.1 hsub
  | merged l μ _ hm _ => exact merge_some_disjoint l μ hm

/-- Witness for C5: the initial state of the concrete instance. -/
theorem reachable_disjoint_witness :
    (initial_state inst0).scenes ∩ (initial_state inst0).maybe_scenes = ∅ :=
  reachable_disjoint inst0 (initial_state inst0) Reachable.init

/-! ### C9: the state ranking -/

/-- C9 (amended): the ranking compares states by `|scenes| + |maybe_scenes|`
ascending; it is a total preorder (totality and transitivity below) and it is
antisymmetric on that sum — but only on the sum, not on the pair. -/
theorem ranking_compare_spec (a b c : TalentSchedState) :
    (ranking_compare a b = Ordering.eq ↔ stateTotal a = stateTotal b) ∧
    (ranking_compare a b = Ordering.lt ↔ stateTotal a < stateTotal b) ∧
    (ranking_compare a b = Ordering.gt ↔ ranking_compare b a = Ordering.lt) ∧
    (ranking_compare a b ≠ Ordering.gt → ranking_compare b c ≠ Ordering.gt →
      ranking_compare a c ≠ Ordering.gt) := by
  refine ⟨?_, ?_, ?_, ?_⟩ <;>
    simp only [ranking_compare, stateTotal, ne_eq, Nat.compare_eq_eq, Nat.compare_eq_lt,
      Nat.compare_eq_gt, not_lt]
  omega

/-- Witness for C9: transitivity instantiated at concrete states. -/
theorem ranking_compare_spec_witness :
    ranking_compare ⟨{0}, ∅⟩ ⟨{0}, {1}⟩ ≠ Ordering.gt :=
  (ranking_compare_spec ⟨{0}, ∅⟩ ⟨∅, {0}⟩ ⟨{0}, {1}⟩).2.2.2 (by decide) (by decide)

/-- C9 (counterexample): two states with the same total but different
`(|scenes|, |maybe_scenes|)` pairs compare `Equal`, so the ranking is not
antisymmetric on the pair. -/
theorem ranking_compare_not_antisymmetric_on_pair :
    ranking_compare ⟨{0}, ∅⟩ ⟨∅, {0}⟩ = Ordering.eq ∧
    ¬(((⟨{0}, ∅⟩ : TalentSchedState).scenes.card,
       (⟨{0}, ∅⟩ : TalentSchedState).maybe_scenes.card) =
      ((⟨∅, {0}⟩ : TalentSchedState).scenes.card,
       (⟨∅, {0}⟩ : TalentSchedState).maybe_scenes.card)) := by
  decide

/-! ### Merge characterization (C4, C6) -/

lemma foldl_mergeStep_scenes (l : List TalentSchedState) :
    ∀ (acc : TalentSchedState) (x : Nat),
      x ∈ (l.foldl mergeStep acc).scenes ↔ x ∈ acc.scenes ∧ ∀ s ∈ l, x ∈ s.scenes := by
  induction l with
  | nil => simp
  | cons a l ih =>
    intro acc x
    simp only [List.foldl_cons, ih, mergeStep, Finset.mem_inter, List.mem_cons]
    constructor
    · rintro ⟨⟨h1, h2⟩, h3⟩
      refine ⟨h1, ?_⟩
      rintro s (rfl | hs)
      exacts [h2, h3 s hs]
    · rintro ⟨h1, h2⟩
      exact ⟨⟨h1, h2 a (Or.inl rfl)⟩, fun s hs => h2 s (Or.inr hs)⟩

lemma foldl_mergeStep_maybe (l : List TalentSchedState) :
    ∀ (acc : TalentSchedState) (x : Nat),
      x ∈ (l.foldl mergeStep acc).maybe_scenes ↔
        x ∈ acc.maybe_scenes ∨ ∃ s ∈ l, x ∈ s.scenes ∨ x ∈ s.maybe_scenes := by
  induction l with
  | nil => simp
  | cons a l ih =>
    intro acc x
    simp only [List.foldl_cons, ih, mergeStep, Finset.mem_union, List.mem_cons]
    constructor
    · rintro (((h | h) | h) | ⟨s, hs, h⟩)
      exacts [Or.inl h, Or.inr ⟨a, Or.inl rfl, Or.inl h⟩, Or.inr ⟨a, Or.inl rfl, Or.inr h⟩,
        Or.inr ⟨s, Or.inr hs, h⟩]
    · rintro (h | ⟨s, rfl | hs, h⟩)
      · exact Or.inl (Or.inl (Or.inl h))
      · rcases h with h | h
        exacts [Or.inl (Or.inl (Or.inr h)), Or.inl (Or.inr h)]
      · exact Or.inr ⟨s, hs, h⟩

lemma merge_spec (s0 : TalentSchedState) (rest : List TalentSchedState) :
    ∃ μ, merge (s0 :: rest) = some μ ∧
      (∀ x, x ∈ μ.scenes ↔ ∀ s ∈ s0 :: rest, x ∈ s.scenes) ∧
      (∀ x, x ∈ μ.maybe_scenes ↔
        ((∃ s ∈ s0 :: rest, x ∈ s.scenes ∨ x ∈ s.maybe_scenes) ∧
         ¬∀ s ∈ s0 :: rest, x ∈ s.scenes)) := by
  refine ⟨_, rfl, ?_, ?_⟩
  · intro x
    rw [foldl_mergeStep_scenes]
    simp only [List.mem_cons, Finset.mem_insert]
    constructor
    · rintro ⟨h1, h2⟩ s (rfl | hs)
      exacts [h1, h2 s hs]
    · intro h
      exact ⟨h s0 (Or.inl rfl), fun s hs => h s (Or.inr hs)⟩
  · intro x
    simp only [Finset.mem_sdiff, foldl_mergeStep_maybe, foldl_mergeStep_scenes,
      Finset.mem_union, List.mem_cons]
    constructor
    · rintro ⟨(h | h) | ⟨s, hs, h⟩, hn⟩
      · refine ⟨⟨s0, Or.inl rfl, Or.inr h⟩, ?_⟩
        rintro hall
        exact hn ⟨hall s0 (Or.inl rfl), fun s hs => hall s (Or.inr hs)⟩
      · refine ⟨⟨s0, Or.inl rfl, Or.inl h⟩, ?_⟩
        rintro hall
        exact hn ⟨hall s0 (Or.inl rfl), fun s hs => hall s (Or.inr hs)⟩
      · refine ⟨⟨s, Or.inr hs, h⟩, ?_⟩
        rintro hall
        exact hn ⟨hall s0 (Or.inl rfl), fun s' hs' => hall s' (Or.inr hs')⟩
    · rintro ⟨⟨s, rfl | hs, h⟩, hn⟩
      · refine ⟨Or.inl h.symm, ?_⟩
        rintro ⟨h1, h2⟩
        refine hn ?_
        rintro s' (rfl | hs')
        exacts [h1, h2 s' hs']
      · refine ⟨Or.inr ⟨s, hs, h⟩, ?_⟩
        rintro ⟨h1, h2⟩
        refine hn ?_
        rintro s' (rfl | hs')
        exacts [h1, h2 s' hs']

/-- C6: the merged state intersects the `scenes` and over-approximates every
input: for every input branch σ, `σ.scenes ⊆ μ.scenes ∪ μ.maybe_scenes` and
`σ.maybe_scenes ⊆ μ.maybe_scenes`. -/
theorem merge_over_approximates (l : List TalentSchedState) (μ : TalentSchedState)
    (hdisj : ∀ σ ∈ l, σ.scenes ∩ σ.maybe_scenes = ∅)
    (hm : merge l = some μ) :
    (∀ x, x ∈ μ.scenes ↔ ∀ σ ∈ l, x ∈ σ.scenes) ∧
    (∀ σ ∈ l, σ.scenes ⊆ μ.scenes ∪ μ.maybe_scenes ∧ σ.maybe_scenes ⊆ μ.maybe_scenes) := by
  match l with
  | [] => simp [merge] at hm
  | s0 :: rest =>
    obtain ⟨μ', hm', hs, hmb⟩ := merge_spec s0 rest
    rw [hm'] at hm
    obtain rfl : μ' = μ := by injection hm
    refine ⟨hs, ?_⟩
    intro σ hσ
    constructor
    · intro x hx
      rw [Finset.mem_union]
      by_cases hall : ∀ s ∈ s0 :: rest, x ∈ s.scenes
      · exact Or.inl ((hs x).2 hall)
      · exact Or.inr ((hmb x).2 ⟨⟨σ, hσ, Or.inl hx⟩, hall⟩)
    · intro x hx
      refine (hmb x).2 ⟨⟨σ, hσ, Or.inr hx⟩, ?_⟩
      intro hall
      have : x ∈ σ.scenes ∩ σ.maybe_scenes := Finset.mem_inter.2 ⟨hall σ hσ, hx⟩
      rw [hdisj σ hσ] at this
      exact Finset.not_mem_empty x this

/-- Witness for C6 at a concrete merge of two states. -/
theorem merge_over_approximates_witness :
    (⟨{0}, {1}⟩ : TalentSchedState).maybe_scenes ⊆
      (⟨{0}, {1}⟩ : TalentSchedState).maybe_scenes :=
  (((merge_over_approximates [⟨{0, 1}, ∅⟩, ⟨{0}, {1}⟩] ⟨{0}, {1}⟩
      (by decide) (by decide)).2 ⟨{0}, {1}⟩ (by simp)).2 : _)

/-- C4: merging can only weaken the (negated) transition cost: the cost out
of the merged state is at least the cost out of every input state, for every
decision whose value is in the domain of every input state. -/
theorem merge_transition_cost_ge (inst : TalentSchedInstance)
    (l : List TalentSchedState) (μ : TalentSchedState) (v : Nat)
    (hdisj : ∀ σ ∈ l, σ.scenes ∩ σ.maybe_scenes = ∅)
    (hm : merge l = some μ)
    (_hdom : ∀ σ ∈ l, v ∈ σ.scenes ∪ σ.maybe_scenes) :
    ∀ σ ∈ l, transition_cost inst σ v ≤ transition_cost inst μ v := by
  match l with
  | [] => simp [merge] at hm
  | s0 :: rest =>
    obtain ⟨μ', hm', hs, hmb⟩ := merge_spec s0 rest
    rw [hm'] at hm
    obtain rfl : μ' = μ := by injection hm
    intro σ hσ
    have hpresent : get_present inst μ' ⊆ get_present inst σ := by
      intro a ha
      rw [mem_get_present] at ha ⊢
      obtain ⟨⟨i, hiS, ⟨him, his⟩, hai⟩, ⟨i', hi'S, ⟨him', his'⟩, hai'⟩⟩ := ha
      refine ⟨⟨i, hiS, ⟨?_, ?_⟩, hai⟩, ⟨i', hi'S, ⟨?_, ?_⟩, hai'⟩⟩
      · intro hmem
        by_cases hall : ∀ s ∈ s0 :: rest, i ∈ s.scenes
        · exact his ((hs i).2 hall)
        · exact him ((hmb i).2 ⟨⟨σ, hσ, Or.inr hmem⟩, hall⟩)
      · intro hmem
        by_cases hall : ∀ s ∈ s0 :: rest, i ∈ s.scenes
        · exact his ((hs i).2 hall)
        · exact him ((hmb i).2 ⟨⟨σ, hσ, Or.inl hmem⟩, hall⟩)
      · intro hmem
        have hsc : i' ∈ σ.scenes := (hs i').1 his' σ hσ
        have : i' ∈ σ.scenes ∩ σ.maybe_scenes := Finset.mem_inter.2 ⟨hsc, hmem⟩
        rw [hdisj σ hσ] at this
        exact Finset.not_mem_empty i' this
      · exact (hs i').1 his' σ hσ
    have hpay : get_present inst μ' ∪ actorsOf inst v ⊆
        get_present inst σ ∪ actorsOf inst v :=
      Finset.union_subset_union hpresent (Finset.Subset.refl _)
    have hsum : ((get_present inst μ' ∪ actorsOf inst v).sum
          fun a => inst.cost a * inst.duration v) ≤
        ((get_present inst σ ∪ actorsOf inst v).sum
          fun a => inst.cost a * inst.duration v) :=
      Finset.sum_le_sum_of_subset hpay
    simp only [transition_cost]
    exact Int.neg_le_neg (Nat.cast_le.2 hsum)

/-- Witness for C4 at a concrete merge of two states. -/
theorem merge_transition_cost_ge_witness :
    transition_cost inst0 ⟨{0}, ∅⟩ 0 ≤ transition_cost inst0 ⟨{0}, ∅⟩ 0 :=
  merge_transition_cost_ge inst0 [⟨{0}, ∅⟩] ⟨{0}, ∅⟩ 0
    (by decide) (by decide) (by decide) ⟨{0}, ∅⟩ (by simp)

/-! ### C7: decompression of meta-solutions -/

lemma renumber_length (l : List Decision) :
    ∀ start, (renumber start l).length = l.length := by
  induction l with
  | nil => intro start; rfl
  | cons d l ih => intro start; simp [renumber, ih]

lemma renumber_map_value (l : List Decision) :
    ∀ start, (renumber start l).map Decision.value = l.map Decision.value := by
  induction l with
  | nil => intro start; rfl
  | cons d l ih => intro start; simp [renumber, ih]

lemma renumber_map_var (l : List Decision) :
    ∀ start, (renumber start l).map Decision.var = List.range' start l.length := by
  induction l with
  | nil => intro start; rfl
  | cons d l ih =>
    intro start
    rw [List.length_cons, List.range'_succ start l.length 1]
    simp [renumber, ih]

lemma flatMap_replicate_map_value (size : Nat → Nat) (m : List Decision) :
    (m.flatMap fun d => List.replicate (size d.value) d).map Decision.value =
      m.flatMap fun d => List.replicate (size d.value) d.value := by
  induction m with
  | nil => rfl
  | cons d m ih => simp [List.flatMap_cons, List.map_append, ih]

lemma flatMap_replicate_length (size : Nat → Nat) (m : List Decision) :
    (m.flatMap fun d => List.replicate (size d.value) d).length =
      (m.map fun d => size d.value).sum := by
  induction m with
  | nil => rfl
  | cons d m ih => simp [List.flatMap_cons, ih]

lemma count_flatMap_replicate (size : Nat → Nat) (c : Nat) (m : List Decision) :
    (m.flatMap fun d => List.replicate (size d.value) d.value).count c =
      (m.map fun d => if c = d.value then size d.value else 0).sum := by
  induction m with
  | nil => rfl
  | cons d m ih =>
    simp only [List.flatMap_cons, List.count_append, ih, List.count_replicate,
      List.map_cons, List.sum_cons]
    by_cases hdc : c = d.value
    · simp [hdc]
    · simp only [beq_iff_eq]
      rw [if_neg (fun h => hdc h.symm), if_neg hdc]

lemma sum_ite_range_of_ge (g : Nat → Nat) :
    ∀ K c, K ≤ c → ((List.range K).map fun x => if c = x then g x else 0).sum = 0 := by
  intro K
  induction K with
  | zero => intro c _; rfl
  | succ K ih =>
    intro c hc
    rw [List.range_succ]
    simp only [List.map_append, List.sum_append, List.map_cons, List.map_nil]
    rw [ih c (Nat.le_of_succ_le hc), if_neg (by omega)]
    simp

lemma sum_ite_range (g : Nat → Nat) :
    ∀ K c, c < K → ((List.range K).map fun x => if c = x then g x else 0).sum = g c := by
  intro K
  induction K with
  | zero => intro c hc; omega
  | succ K ih =>
    intro c hc
    rw [List.range_succ]
    simp only [List.map_append, List.sum_append, List.map_cons, List.map_nil]
    by_cases h : c = K
    · subst h
      rw [sum_ite_range_of_ge g c c (Nat.le_refl c), if_pos rfl]
      simp
    · rw [ih c (by omega), if_neg h]
      simp

/-- C7: `decompress` expands every meta-decision of value `c` into `size c`
consecutive copies, in order, and renumbers the variables consecutively from
`S - length`; when every cluster of `0..K` is decided exactly once and the
cluster sizes sum to `S`, the result has length `S`, variables `X0..X(S-1)`,
and every cluster `c` occupies exactly `size c` slots. -/
theorem decompress_spec (S K : Nat) (size : Nat → Nat) (m : List Decision)
    (hperm : (m.map Decision.value).Perm (List.range K))
    (hsum : (Finset.range K).sum size = S) :
    (decompress S size m).length = S ∧
    (decompress S size m).map Decision.var = List.range S ∧
    (decompress S size m).map Decision.value =
      (m.flatMap fun d => List.replicate (size d.value) d.value) ∧
    ∀ c, c < K → (((decompress S size m).map Decision.value).count c = size c) := by
  have hmapmap : (m.map fun d => size d.value) = (m.map Decision.value).map size := by
    rw [List.map_map]
    rfl
  have hS : (m.flatMap fun d => List.replicate (size d.value) d).length = S := by
    rw [flatMap_replicate_length, hmapmap, (hperm.map size).sum_eq]
    exact hsum
  have hvals : (decompress S size m).map Decision.value =
      (m.flatMap fun d => List.replicate (size d.value) d.value) := by
    simp only [decompress]
    rw [renumber_map_value, flatMap_replicate_map_value]
  refine ⟨?_, ?_, hvals, ?_⟩
  · simp only [decompress]
    rw [renumber_length, hS]
  · simp only [decompress]
    rw [renumber_map_var, hS, Nat.sub_self, ← List.range_eq_range']
  · intro c hc
    rw [hvals, count_flatMap_replicate]
    have : (m.map fun d => if c = d.value then size d.value else 0) =
        (m.map Decision.value).map fun x => if c = x then size x else 0 := by
      rw [List.map_map]
      rfl
    rw [this, (hperm.map fun x => if c = x then size x else 0).sum_eq]
    exact sum_ite_range size K c hc

/-- Witness for C7: a two-cluster meta-solution with sizes 2 and 1. -/
theorem decompress_spec_witness :
    (decompress 3 (fun c => if c = 0 then 2 else 1)
      [⟨0, 1⟩, ⟨1, 0⟩]).length = 3 :=
  (decompress_spec 3 2 (fun c => if c = 0 then 2 else 1) [⟨0, 1⟩, ⟨1, 0⟩]
    (by decide) (by decide)).1

/-! ### C8: the clustering merge step -/

lemma pick_go {α : Type} (f : α → Nat) (R : α → α → Prop) :
    ∀ (l : List α) (b : α), List.Pairwise R (b :: l) →
      ∃ r, pick f (some b) l = some r ∧ (r = b ∨ r ∈ l) ∧ f r ≤ f b ∧
        (∀ x ∈ l, f r ≤ f x) ∧ (f b = f r → r = b) ∧
        (∀ x ∈ l, f x = f r → r = b ∨ r = x ∨ R r x) := by
  intro l
  induction l with
  | nil =>
    intro b _
    exact ⟨b, rfl, Or.inl rfl, Nat.le_refl _, by simp, fun _ => rfl, by simp⟩
  | cons x xs ih =>
    intro b hpw
    obtain ⟨hb, hpw'⟩ := List.pairwise_cons.1 hpw
    obtain ⟨hx, hpwxs⟩ := List.pairwise_cons.1 hpw'
    by_cases hfx : f x < f b
    · obtain ⟨r, hr, hmem, hle, hlex, heqb, htie⟩ := ih x hpw'
      refine ⟨r, ?_, ?_, ?_, ?_, ?_, ?_⟩
      · show pick f (some (if f x < f b then x else b)) xs = some r
        rw [if_pos hfx]
        exact hr
      · rcases hmem with rfl | h
        exacts [Or.inr (List.mem_cons_self _ _), Or.inr (List.mem_cons_of_mem x h)]
      · exact Nat.le_of_lt (Nat.lt_of_le_of_lt hle hfx)
      · intro y hy
        rcases List.mem_cons.1 hy with rfl | hy'
        exacts [hle, hlex y hy']
      · intro hfb
        have hcontra : f r < f r := Nat.lt_of_le_of_lt hle (hfb ▸ hfx)
        exact absurd hcontra (Nat.lt_irrefl _)
      · intro y hy hfy
        rcases List.mem_cons.1 hy with rfl | hy'
        · exact Or.inr (Or.inl (heqb hfy))
        · rcases htie y hy' hfy with h1 | h1 | h1
          · subst h1
            exact Or.inr (Or.inr (hx y hy'))
          · exact Or.inr (Or.inl h1)
          · exact Or.inr (Or.inr h1)
    · have hpwbxs : List.Pairwise R (b :: xs) :=
        List.pairwise_cons.2 ⟨fun y hy => hb y (List.mem_cons_of_mem x hy), hpwxs⟩
      obtain ⟨r, hr, hmem, hle, hlex, heqb, htie⟩ := ih b hpwbxs
      have hbx : f b ≤ f x := Nat.le_of_not_lt hfx
      refine ⟨r, ?_, ?_, hle, ?_, heqb, ?_⟩
      · show pick f (some (if f x < f b then x else b)) xs = some r
        rw [if_neg hfx]
        exact hr
      · rcases hmem with rfl | h
        exacts [Or.inl rfl, Or.inr (List.mem_cons_of_mem x h)]
      · intro y hy
        rcases List.mem_cons.1 hy with rfl | hy'
        exacts [Nat.le_trans hle hbx, hlex y hy']
      · intro y hy hfy
        rcases List.mem_cons.1 hy with rfl | hy'
        · have hbr : f b ≤ f r := hfy ▸ hbx
          exact Or.inl (heqb (Nat.le_antisymm hbr hle))
        · rcases htie y hy' hfy with h1 | h1 | h1
          exacts [Or.inl h1, Or.inr (Or.inl h1), Or.inr (Or.inr h1)]

lemma pick_none_spec {α : Type} (f : α → Nat) (R : α → α → Prop) (x : α) (xs : List α)
    (hpw : List.Pairwise R (x :: xs)) :
    ∃ r, pick f none (x :: xs) = some r ∧ r ∈ x :: xs ∧ (∀ y ∈ x :: xs, f r ≤ f y) ∧
      (∀ y ∈ x :: xs, f y = f r → r = y ∨ R r y) := by
  obtain ⟨hx, _⟩ := List.pairwise_cons.1 hpw
  obtain ⟨r, hr, hmem, hle, hlex, heqb, htie⟩ := pick_go f R xs x hpw
  refine ⟨r, ?_, ?_, ?_, ?_⟩
  · show pick f (some x) xs = some r
    exact hr
  · rcases hmem with rfl | h
    exacts [List.mem_cons_self _ _, List.mem_cons_of_mem x h]
  · intro y hy
    rcases List.mem_cons.1 hy with rfl | hy'
    exacts [hle, hlex y hy']
  · intro y hy hfy
    rcases List.mem_cons.1 hy with rfl | hy'
    · exact Or.inl (heqb hfy)
    · rcases htie y hy' hfy with h1 | h1 | h1
      · subst h1
        exact Or.inr (hx y hy')
      · exact Or.inl h1
      · exact Or.inr h1

lemma mem_pairList {n : Nat} {q : Nat × Nat} : q ∈ pairList n ↔ q.1 < q.2 ∧ q.2 < n := by
  obtain ⟨i, j⟩ := q
  simp only [pairList, List.mem_flatMap, List.mem_map, List.mem_filter, List.mem_range,
    decide_eq_true_eq, Prod.mk.injEq]
  constructor
  · rintro ⟨a, ha, b, ⟨hbn, hab⟩, rfl, rfl⟩
    exact ⟨hab, hbn⟩
  · rintro ⟨hij, hjn⟩
    exact ⟨i, Nat.lt_trans hij hjn, j, ⟨hjn, hij⟩, rfl, rfl⟩

lemma pairList_pairwise (n : Nat) : List.Pairwise pairLexLt (pairList n) := by
  rw [pairList, List.pairwise_flatMap]
  constructor
  · intro i _
    rw [List.pairwise_map]
    refine List.Pairwise.imp ?_ ((List.pairwise_lt_range n).filter _)
    intro a b hab
    exact Or.inr ⟨rfl, hab⟩
  · refine List.Pairwise.imp ?_ (List.pairwise_lt_range n)
    intro i1 i2 h12 x hx y hy
    obtain ⟨a, _, rfl⟩ := List.mem_map.1 hx
    obtain ⟨b, _, rfl⟩ := List.mem_map.1 hy
    exact Or.inl h12

lemma pairLoss_eq_specLoss (inst : TalentSchedInstance) (cs : List Cluster) (i j : Nat)
    (hd : (cs.getD i default).2 ∩ (cs.getD j default).2 = ∅) :
    pairLoss inst (cs.getD i default) (cs.getD j default) = specLoss inst cs i j := by
  rw [specLoss, pairLoss, sideLoss, sideLoss,
    Finset.sum_union (Finset.disjoint_iff_inter_eq_empty.2 hd)]
  congr 1 <;>
  · refine Finset.sum_congr rfl ?_
    intro s _
    rw [Finset.sdiff_eq_filter]

/-- C8 (amended): whenever the clustering step selects the pair `(i, j)`, that
pair has `i < j < |clusters|`, its loss (the claim's formula, over the union of
the member sets) is minimal over all pairs, any other minimizing pair is
lexicographically larger in `(i, j)` — i.e. ties are broken by smallest `i`
first, then smallest `j` — and the step AND-s cluster `j`'s requirement set
into cluster `i`'s, unions the members in, and removes cluster `j`. -/
theorem cluster_step_spec (inst : TalentSchedInstance) (cs : List Cluster) (i j : Nat)
    (hdisj : ∀ i', i' < cs.length → ∀ j', j' < cs.length → i' ≠ j' →
      (cs.getD i' default).2 ∩ (cs.getD j' default).2 = ∅)
    (hsel : selectPair inst cs = some (i, j)) :
    i < j ∧ j < cs.length ∧
    (∀ i' j', i' < j' → j' < cs.length → specLoss inst cs i j ≤ specLoss inst cs i' j') ∧
    (∀ i' j', i' < j' → j' < cs.length → specLoss inst cs i' j' = specLoss inst cs i j →
      (i = i' ∧ j = j') ∨ i < i' ∨ (i = i' ∧ j < j')) ∧
    clusterStep inst cs =
      (cs.eraseIdx j).set i
        ((cs.getD i default).1 ∩ (cs.getD j default).1,
         (cs.getD i default).2 ∪ (cs.getD j default).2) := by
  match hpl : pairList cs.length with
  | [] =>
    rw [selectPair, hpl] at hsel
    exact absurd hsel (by simp [pick])
  | x :: xs =>
    have hpw : List.Pairwise pairLexLt (x :: xs) := hpl ▸ pairList_pairwise cs.length
    obtain ⟨r, hr, hmem, hle, htie⟩ :=
      pick_none_spec (fun p : Nat × Nat => pairLoss inst (cs.getD p.1 default) (cs.getD p.2 default))
        pairLexLt x xs hpw
    rw [selectPair, hpl, hr] at hsel
    obtain rfl : r = (i, j) := by injection hsel
    have hij : i < j ∧ j < cs.length := by
      have : (i, j) ∈ pairList cs.length := hpl ▸ hmem
      exact mem_pairList.1 this
    have hconv : ∀ i' j', i' < j' → j' < cs.length →
        pairLoss inst (cs.getD i' default) (cs.getD j' default) = specLoss inst cs i' j' := by
      intro i' j' h1 h2
      exact pairLoss_eq_specLoss inst cs i' j'
        (hdisj i' (Nat.lt_trans h1 h2) j' h2 (Nat.ne_of_lt h1))
    refine ⟨hij.1, hij.2, ?_, ?_, ?_⟩
    · intro i' j' h1 h2
      have hmem' : (i', j') ∈ x :: xs := by
        rw [← hpl]
        exact mem_pairList.2 ⟨h1, h2⟩
      have := hle (i', j') hmem'
      rwa [hconv i j hij.1 hij.2, hconv i' j' h1 h2] at this
    · intro i' j' h1 h2 heq
      have hmem' : (i', j') ∈ x :: xs := by
        rw [← hpl]
        exact mem_pairList.2 ⟨h1, h2⟩
      have heq' : pairLoss inst (cs.getD i' default) (cs.getD j' default) =
          pairLoss inst (cs.getD i default) (cs.getD j default) := by
        rw [hconv i j hij.1 hij.2, hconv i' j' h1 h2]
        exact heq
      rcases htie (i', j') hmem' heq' with h | h
      · injection h with ha hb
        exact Or.inl ⟨ha, hb⟩
      · rcases h with h | ⟨h1', h2'⟩
        exacts [Or.inr (Or.inl h), Or.inr (Or.inr ⟨h1', h2'⟩)]
    · have hsel2 : selectPair inst cs = some (i, j) := by
        rw [selectPair, hpl]
        exact hr
      rw [clusterStep, hsel2]

/-- Witness for C8: the selected pair of the concrete four-cluster
configuration and the resulting merged cluster list. -/
theorem cluster_step_spec_witness :
    clusterStep inst1 cs0 =
      (cs0.eraseIdx 3).set 0
        ((cs0.getD 0 default).1 ∩ (cs0.getD 3 default).1,
         (cs0.getD 0 default).2 ∪ (cs0.getD 3 default).2) :=
  (cluster_step_spec inst1 cs0 0 3 (by decide) (by decide)).2.2.2.2

/-- C8 (counterexample): on the concrete four-cluster configuration the pairs
`(0,3)` and `(1,2)` both attain the minimal loss, yet the code merges `(0,3)`;
the claim's tie-break "smallest j first" would demand `(1,2)`. -/
theorem cluster_tiebreak_counterexample :
    selectPair inst1 cs0 = some (0, 3) ∧
    specLoss inst1 cs0 1 2 = specLoss inst1 cs0 0 3 ∧
    specLoss inst1 cs0 0 3 ≤ specLoss inst1 cs0 0 1 ∧
    specLoss inst1 cs0 0 3 ≤ specLoss inst1 cs0 0 2 ∧
    specLoss inst1 cs0 0 3 ≤ specLoss inst1 cs0 1 3 ∧
    specLoss inst1 cs0 0 3 ≤ specLoss inst1 cs0 2 3 := by
  decide

/-! ### C3: path accounting -/

lemma schedState_eq (inst : TalentSchedInstance) (p : Nat → Nat) :
    ∀ k, schedState inst p k =
      ⟨Finset.range inst.nb_scenes \ (Finset.range k).image p, ∅⟩ := by
  intro k
  induction k with
  | zero => simp [schedState, initial_state]
  | succ k ih =>
    rw [schedState, ih, transition]
    rw [Finset.range_succ, Finset.image_insert, Finset.sdiff_insert, Finset.erase_empty]

lemma image_range_eq_range (inst : TalentSchedInstance) (p : Nat → Nat)
    (hmaps : ∀ t, t < inst.nb_scenes → p t < inst.nb_scenes)
    (hinj : ∀ t, t < inst.nb_scenes → ∀ u, u < inst.nb_scenes → p t = p u → t = u) :
    (Finset.range inst.nb_scenes).image p = Finset.range inst.nb_scenes := by
  apply Finset.eq_of_subset_of_card_le
  · intro x hx
    obtain ⟨j, hj, rfl⟩ := Finset.mem_image.1 hx
    exact Finset.mem_range.2 (hmaps j (Finset.mem_range.1 hj))
  · rw [Finset.card_image_of_injOn]
    intro t ht u hu htu
    exact hinj t (Finset.mem_range.1 ht) u (Finset.mem_range.1 hu) htu

lemma psurj (inst : TalentSchedInstance) (p : Nat → Nat)
    (hmaps : ∀ t, t < inst.nb_scenes → p t < inst.nb_scenes)
    (hinj : ∀ t, t < inst.nb_scenes → ∀ u, u < inst.nb_scenes → p t = p u → t = u) :
    ∀ s, s < inst.nb_scenes → ∃ j, j < inst.nb_scenes ∧ p j = s := by
  intro s hs
  have hmem : s ∈ (Finset.range inst.nb_scenes).image p := by
    rw [image_range_eq_range inst p hmaps hinj]
    exact Finset.mem_range.2 hs
  obtain ⟨j, hj, hpj⟩ := Finset.mem_image.1 hmem
  exact ⟨j, Finset.mem_range.1 hj, hpj⟩

lemma mem_pay_iff (inst : TalentSchedInstance) (p : Nat → Nat)
    (hmaps : ∀ t, t < inst.nb_scenes → p t < inst.nb_scenes)
    (hinj : ∀ t, t < inst.nb_scenes → ∀ u, u < inst.nb_scenes → p t = p u → t = u)
    (k : Nat) (hk : k < inst.nb_scenes) (a : Nat) :
    a ∈ get_present inst (schedState inst p k) ∪ actorsOf inst (p k) ↔
      onSet inst p inst.nb_scenes a k := by
  rw [schedState_eq inst p k, Finset.mem_union, mem_get_present, onSet]
  simp only [Finset.not_mem_empty, not_false_iff, true_and, Finset.mem_sdiff,
    Finset.mem_range, Finset.mem_image, not_and, not_not, not_exists]
  constructor
  · rintro (⟨⟨i, hiS, hbi, hai⟩, ⟨i', hi'S, hsi', hai'⟩⟩ | hreq)
    · have himg : ∃ t ∈ Finset.range k, p t = i := by
        by_contra hno
        exact (hbi hiS) (by simpa using hno)
      obtain ⟨t, htk, rfl⟩ := himg
      have htk' : t < k := Finset.mem_range.1 htk
      obtain ⟨hi'S2, hno'⟩ := hsi'
      obtain ⟨j, hjS, rfl⟩ := psurj inst p hmaps hinj i' hi'S
      have hkj : k ≤ j := by
        by_contra hjk
        exact (hno' j (Nat.lt_of_not_le hjk)) rfl
      exact ⟨⟨t, Nat.lt_succ_of_lt htk', hai⟩, ⟨j, hjS, hkj, hai'⟩⟩
    · exact ⟨⟨k, Nat.lt_succ_self k, hreq⟩, ⟨k, hk, Nat.le_refl k, hreq⟩⟩
  · rintro ⟨⟨i, hik, hai⟩, ⟨j, hjS, hkj, haj⟩⟩
    by_cases hreq : a ∈ actorsOf inst (p k)
    · exact Or.inr hreq
    · left
      have hik' : i < k := by
        rcases Nat.lt_succ_iff_lt_or_eq.1 hik with h | rfl
        · exact h
        · exact absurd hai hreq
      have hjk : k < j := by
        rcases Nat.lt_or_ge k j with h | h
        · exact h
        · have : j = k := Nat.le_antisymm (by omega) hkj
          subst this
          exact absurd haj hreq
      refine ⟨⟨p i, hmaps i (Nat.lt_trans hik' hk), ?_, hai⟩,
        ⟨p j, hmaps j hjS, ⟨hmaps j hjS, ?_⟩, haj⟩⟩
      · intro _ hno
        exact hno i hik' rfl
      · intro t htk hpt
        have htS : t < inst.nb_scenes := Nat.lt_trans htk hk
        have : t = j := hinj t htS j hjS hpt
        subst this
        exact absurd hkj (Nat.not_le.2 htk)

/-- C3: the initial value plus the accumulated transition cost of any complete
path equals the negated total holding cost of the induced schedule (each
actor's cost times the days on set between their first and last required
scene, both included). -/
theorem path_accounting (inst : TalentSchedInstance) (p : Nat → Nat)
    (hmaps : ∀ t, t < inst.nb_scenes → p t < inst.nb_scenes)
    (hinj : ∀ t, t < inst.nb_scenes → ∀ u, u < inst.nb_scenes → p t = p u → t = u) :
    initial_value inst + pathCost inst p inst.nb_scenes =
      -((total_holding_cost inst p : Nat) : Int) := by
  have h1 : pathCost inst p inst.nb_scenes = (Finset.range inst.nb_scenes).sum fun k =>
      -((((get_present inst (schedState inst p k) ∪ actorsOf inst (p k)).sum
        fun a => inst.cost a * inst.duration (p k)) : Nat) : Int) := rfl
  have h2 : ((Finset.range inst.nb_scenes).sum fun k =>
      (get_present inst (schedState inst p k) ∪ actorsOf inst (p k)).sum
        fun a => inst.cost a * inst.duration (p k)) = total_holding_cost inst p := by
    have hsub : ∀ k, get_present inst (schedState inst p k) ∪ actorsOf inst (p k) ⊆
        Finset.range inst.nb_actors := fun k =>
      Finset.union_subset (get_present_subset inst _) (actorsOf_subset inst _)
    calc ((Finset.range inst.nb_scenes).sum fun k =>
        (get_present inst (schedState inst p k) ∪ actorsOf inst (p k)).sum
          fun a => inst.cost a * inst.duration (p k))
        = (Finset.range inst.nb_scenes).sum fun k =>
            (Finset.range inst.nb_actors).sum fun a =>
              if a ∈ get_present inst (schedState inst p k) ∪ actorsOf inst (p k) then
                inst.cost a * inst.duration (p k) else 0 := by
          refine Finset.sum_congr rfl ?_
          intro k _
          rw [← Finset.sum_filter, Finset.filter_mem_eq_inter,
            Finset.inter_eq_right.2 (hsub k)]
      _ = (Finset.range inst.nb_actors).sum fun a =>
            (Finset.range inst.nb_scenes).sum fun k =>
              if a ∈ get_present inst (schedState inst p k) ∪ actorsOf inst (p k) then
                inst.cost a * inst.duration (p k) else 0 := Finset.sum_comm
      _ = (Finset.range inst.nb_actors).sum fun a =>
            ((Finset.range inst.nb_scenes).filter
              (fun k => onSet inst p inst.nb_scenes a k)).sum
                fun k => inst.cost a * inst.duration (p k) := by
          refine Finset.sum_congr rfl ?_
          intro a _
          rw [Finset.sum_filter]
          refine Finset.sum_congr rfl ?_
          intro k hkr
          have hiff := mem_pay_iff inst p hmaps hinj k (Finset.mem_range.1 hkr) a
          by_cases h : onSet inst p inst.nb_scenes a k
          · rw [if_pos (hiff.2 h), if_pos h]
          · rw [if_neg (fun hm => h (hiff.1 hm)), if_neg h]
      _ = total_holding_cost inst p := by
          rw [total_holding_cost]
          refine Finset.sum_congr rfl ?_
          intro a _
          rw [Finset.mul_sum]
  rw [initial_value, h1, Finset.sum_neg_distrib, ← Nat.cast_sum, h2, zero_add]

/-- Witness for C3: the identity schedule of the one-scene instance. -/
theorem path_accounting_witness :
    initial_value inst0 + pathCost inst0 (fun k => k) inst0.nb_scenes =
      -((total_holding_cost inst0 (fun k => k) : Nat) : Int) :=
  path_accounting inst0 (fun k => k) (by decide) (by decide)

/-! ### C10: merge on an empty input -/

/-- C10: `merge` is defined exactly on nonempty inputs: the `none` result
(modelling the `unwrap` panic of the source) occurs exactly on the empty
list of states. -/
theorem merge_eq_none_iff_empty (l : List TalentSchedState) :
    merge l = none ↔ l = [] := by
  cases l <;> simp [merge]

/-- Witness for C10: the empty input is undefined (the modelled panic). -/
theorem merge_eq_none_iff_empty_witness :
    merge ([] : List TalentSchedState) = none :=
  (merge_eq_none_iff_empty []).2 rfl

end TalentSched
